import Mathlib

/-!
Verification of the silent-na-trends pipeline core.

This file shallowly embeds the algorithmic core of the repository:
the record normalizer with deduplication, the engagement scorer, the
n-gram slang extractor and the balanced per-platform sampler from
`scripts/02_prepare_context.py`, and the Markdown-to-document renderer
from `scripts/04_markdown_to_docx.py`.  Machine reals are modelled by
rationals; the natural-log and square-root functions used by the scorer
are abstract parameters (no claim here depends on their values beyond
what is stated); the MD5 digest used for dedup keys is likewise an
abstract string-to-string parameter.
-/

namespace Trends

/-! ### Python-style string primitives -/

/-- The character class matched by the regex `\s` (ASCII). -/
def wsChars : List Char := [' ', Char.ofNat 9, Char.ofNat 10, Char.ofNat 13,
  Char.ofNat 11, Char.ofNat 12]

/-- Whether a character is Python whitespace. -/
def isSpacePy (c : Char) : Bool := c ∈ wsChars

/-- Replace every maximal run of whitespace by a single space:
the effect of `re.sub(r"\s+", " ", ·)`.  A whitespace character is
dropped when the next character is also whitespace, so each run
surfaces as the single space emitted at its last character. -/
def collapseWS : List Char → List Char
  | [] => []
  | c :: rest =>
    if isSpacePy c then
      if (rest.head?.map isSpacePy).getD false then collapseWS rest
      else ' ' :: collapseWS rest
    else c :: collapseWS rest

/-- Strip whitespace from both ends of a character list (`str.strip`). -/
def pyStripL (l : List Char) : List Char :=
  ((l.dropWhile isSpacePy).reverse.dropWhile isSpacePy).reverse

/-- `str.strip` on strings. -/
def stripPy (s : String) : String := String.mk (pyStripL s.toList)

/-- `str.rstrip` on strings. -/
def pyRstrip (s : String) : String :=
  String.mk ((s.toList.reverse.dropWhile isSpacePy).reverse)

/-- `str.lstrip` on strings. -/
def pyLstrip (s : String) : String := String.mk (s.toList.dropWhile isSpacePy)

/-- ASCII uppercase-to-lowercase table used to model `str.lower`. -/
def upLow : List (Char × Char) :=
  [('A', 'a'), ('B', 'b'), ('C', 'c'), ('D', 'd'), ('E', 'e'), ('F', 'f'),
   ('G', 'g'), ('H', 'h'), ('I', 'i'), ('J', 'j'), ('K', 'k'), ('L', 'l'),
   ('M', 'm'), ('N', 'n'), ('O', 'o'), ('P', 'p'), ('Q', 'q'), ('R', 'r'),
   ('S', 's'), ('T', 't'), ('U', 'u'), ('V', 'v'), ('W', 'w'), ('X', 'x'),
   ('Y', 'y'), ('Z', 'z')]

/-- Lower-case one character (ASCII model of `str.lower`). -/
def lowerChar (c : Char) : Char :=
  (((upLow.find? (fun p => p.1 = c)).map (fun p => p.2)).getD c)

/-- Lower-case a string (ASCII model of `str.lower`). -/
def pyLower (s : String) : String := String.mk (s.toList.map lowerChar)

/-- Python truthiness of an optional string: `None` and `""` are falsy. -/
def truthy : Option String → Bool
  | none => false
  | some s => s ≠ ""

/-- Python `a or b` on optional strings. -/
def pyOr (a b : Option String) : Option String :=
  if truthy a then a else b

/-- Python `a or ""` on an optional string. -/
def pyStr (a : Option String) : String :=
  if truthy a then a.getD "" else ""

/-- The whitespace normalizer `norm_text` of `02_prepare_context.py`:
`re.sub(r"\s+", " ", t).strip()`. -/
def norm_text (t : String) : String := String.mk (pyStripL (collapseWS t.toList))

/-! ### The record shape

One permissively-optional record type stands for the raw adapter rows
and for the cleaned rows produced by `prepare` (in Python both are
plain dicts; an absent key reads back as `None` via `.get`). -/

/-- A value sitting in an engagement-counter field: absent, numeric, or
something that fails numeric coercion. -/
inductive EngVal where
  | null : EngVal
  | num : ℚ → EngVal
  | junk : EngVal
deriving DecidableEq, Repr

/-- The pipeline record: every field of the ingested-record contract. -/
structure Rec where
  platform : Option String := none
  kind : Option String := none
  author : Option String := none
  subreddit : Option String := none
  url : Option String := none
  ts : Option String := none
  title : Option String := none
  text : Option String := none
  caption : Option String := none
  likes : EngVal := .null
  comments : EngVal := .null
  shares : EngVal := .null
  hashtags : Option (List String) := none
  tag : Option String := none
  term : Option String := none
  value : EngVal := .null
  score : Option ℚ := none
deriving DecidableEq, Repr

/-- The record with every field absent. -/
def blankRec : Rec := {}

/-! ### The Normalizer (`prepare` in `02_prepare_context.py`) -/

/-- The digest of `hash_text`, over an abstract hash `hf` standing for
`hashlib.md5(...).hexdigest()`. -/
def hash_text (hf : String → String) (t : String) : String := hf (norm_text t)

/-- The dedup key of a record:
`key = url or hash_text(r.get("text") or r.get("title") or "")`. -/
def dedupKey (hf : String → String) (r : Rec) : String :=
  if truthy r.url then pyStr r.url else hash_text hf (pyStr (pyOr r.text r.title))

/-- The canonical cleaned row appended by `prepare` for a surviving record. -/
def toCleaned (r : Rec) : Rec where
  platform := some (pyLower (pyStr r.platform))
  kind := none
  author := some (pyStr (pyOr r.author r.subreddit))
  subreddit := none
  url := r.url
  ts := r.ts
  title := some (norm_text (pyStr r.title))
  text := some (norm_text (pyStr (pyOr r.text r.caption)))
  caption := none
  likes := r.likes
  comments := r.comments
  shares := r.shares
  hashtags := r.hashtags
  tag := r.tag
  term := r.term
  value := r.value
  score := none

/-- The dedup loop of `prepare`, threading the `seen` key set. -/
def prepareGo (hf : String → String) (seen : List String) : List Rec → List Rec
  | [] => []
  | r :: rest =>
    let key := dedupKey hf r
    if key ∈ seen then prepareGo hf seen rest
    else toCleaned r :: prepareGo hf (key :: seen) rest

/-- `prepare(rows)`: deduplicate and normalise text/fields. -/
def prepare (hf : String → String) (rows : List Rec) : List Rec :=
  prepareGo hf [] rows

/-- The raw records that survive the dedup loop (same traversal as
`prepareGo`, returning the untransformed survivors). -/
def keptGo (hf : String → String) (seen : List String) : List Rec → List Rec
  | [] => []
  | r :: rest =>
    let key := dedupKey hf r
    if key ∈ seen then keptGo hf seen rest
    else r :: keptGo hf (key :: seen) rest

/-- The raw records that survive `prepare`. -/
def kept (hf : String → String) (rows : List Rec) : List Rec :=
  keptGo hf [] rows

/-! ### The Engagement Scorer (`trend_score`) -/

/-- Python `int(float(x))`: truncation toward zero on the rational model. -/
def pyInt (q : ℚ) : ℤ := if 0 ≤ q then ⌊q⌋ else ⌈q⌉

/-- `safe_nonneg_int`: coerce to a non-negative integer, all failures
and non-positive values becoming `0`. -/
def safe_nonneg_int : EngVal → ℕ
  | .null => 0
  | .junk => 0
  | .num q => let v := pyInt q; if 0 < v then v.toNat else 0

/-- The weighted engagement base of a record:
`likes + 2*comments + 2*shares` after coercion. -/
def baseOf (r : Rec) : ℕ :=
  safe_nonneg_int r.likes + 2 * safe_nonneg_int r.comments + 2 * safe_nonneg_int r.shares

/-- Mean of a list of rationals (`statistics.fmean`; `0` unused on `[]`
because `trend_score` guards emptiness). -/
def meanOf (l : List ℚ) : ℚ := l.sum / l.length

/-- Population variance of a list of rationals; `statistics.pstdev` is
its square root. -/
def pvarOf (l : List ℚ) : ℚ := ((l.map (fun x => (x - meanOf l) ^ 2)).sum) / l.length

/-- Round half-to-even at the integers (Python `round` on the model). -/
def roundHalfEven (q : ℚ) : ℤ :=
  let f := ⌊q⌋
  let frac := q - f
  if frac < 1 / 2 then f
  else if 1 / 2 < frac then f + 1
  else if f % 2 = 0 then f else f + 1

/-- Python `round(q, 3)`. -/
def round3 (q : ℚ) : ℚ := (roundHalfEven (q * 1000) : ℚ) / 1000

/-- `trend_score`: engagement z-score across the entire batch.  `lg`
abstracts `math.log1p` restricted to the naturals it is applied to, and
`sq` abstracts `math.sqrt`, so that `sq (pvarOf bases)` stands for
`statistics.pstdev(bases)`. -/
def trend_score (lg : ℕ → ℚ) (sq : ℚ → ℚ) (rows : List Rec) : List Rec :=
  let bases := rows.map (fun r => lg (max 0 (baseOf r)))
  let mu := if bases = [] then 0 else meanOf bases
  let sd := if 1 < bases.length then sq (pvarOf bases) else 0
  (rows.zip bases).map (fun p =>
    { p.1 with score := some (round3 ((p.2 - mu) / (if 0 < sd then sd else 1))) })

/-! ### The Slang Extractor (`ngram_slang`) -/

/-- The apostrophe character, kept out of string literals. -/
def apos : Char := Char.ofNat 39

/-- Whether a character is an ASCII digit (`\d`). -/
def isDigitPy (c : Char) : Bool := 48 ≤ c.toNat && c.toNat ≤ 57

/-- Whether a character is an ASCII word character (`\w`). -/
def isWordPy (c : Char) : Bool :=
  (48 ≤ c.toNat && c.toNat ≤ 57) || (65 ≤ c.toNat && c.toNat ≤ 90) ||
  (97 ≤ c.toNat && c.toNat ≤ 122) || c.toNat = 95

/-- Whether a character is a lower-case ASCII letter (`[a-z]`). -/
def isLowerAlpha (c : Char) : Bool := 97 ≤ c.toNat && c.toNat ≤ 122

/-- Whether a character may continue a slang token (`[a-z'\-]`). -/
def isTokChar (c : Char) : Bool := isLowerAlpha c || c = apos || c = '-'

/-- Length of the match of `http\S+|[@#]\w+|\d+` at the head of the
list, if any (alternatives in regex order, each greedy). -/
def matchNoise (cs : List Char) : Option ℕ :=
  match cs with
  | 'h' :: 't' :: 't' :: 'p' :: rest =>
    let k := (rest.takeWhile (fun c => !isSpacePy c)).length
    if 0 < k then some (4 + k) else none
  | c :: rest =>
    if c = '@' || c = '#' then
      let k := (rest.takeWhile isWordPy).length
      if 0 < k then some (1 + k) else none
    else if isDigitPy c then
      some (1 + (rest.takeWhile isDigitPy).length)
    else none
  | [] => none

/-- The scan of `re.sub(r"http\S+|[@#]\w+|\d+", " ", ·)`, fuelled by the
input length (each step consumes at least one character). -/
def subNoiseGo : ℕ → List Char → List Char
  | 0, cs => cs
  | fuel + 1, cs =>
    match cs with
    | [] => []
    | c :: rest =>
      match matchNoise (c :: rest) with
      | some k => ' ' :: subNoiseGo fuel ((c :: rest).drop k)
      | none => c :: subNoiseGo fuel rest

/-- `re.sub(r"http\S+|[@#]\w+|\d+", " ", ·)` on strings. -/
def subNoise (s : String) : String := String.mk (subNoiseGo s.toList.length s.toList)

/-- The scan of `re.findall(r"[a-z][a-z'\-]+", ·)`, fuelled by the input
length. -/
def findTokensGo : ℕ → List Char → List String
  | 0, _ => []
  | fuel + 1, cs =>
    match cs with
    | [] => []
    | c :: rest =>
      if isLowerAlpha c then
        let run := rest.takeWhile isTokChar
        if 0 < run.length then
          String.mk (c :: run) :: findTokensGo fuel (rest.drop run.length)
        else findTokensGo fuel rest
      else findTokensGo fuel rest

/-- `re.findall(r"[a-z][a-z'\-]+", ·)` on strings. -/
def findTokens (s : String) : List String := findTokensGo s.toList.length s.toList

/-- The literal stop-word set of `ngram_slang` (apostrophes spliced in). -/
def stopWords : List String :=
  ["the", "a", "an", "and", "or", "for", "with", "this", "that", "about",
   "from", "into", "over", "under", "your", "our", "their", "you", "we",
   "they", "of", "in", "on", "at", "to", "is", "are", "be", "was", "were",
   "been", "being", "will", "would", "can", "could", "should", "it", "its",
   "it" ++ String.mk [apos] ++ "s", "im", "i" ++ String.mk [apos] ++ "m"]

/-- `" ".join` on a list of strings. -/
def joinSpace (l : List String) : String := String.intercalate " " l

/-- The social-platform texts feeding the slang corpus. -/
def slangTexts (rows : List Rec) : List String :=
  (rows.filter (fun r =>
    r.platform = some "instagram" || r.platform = some "x" || r.platform = some "reddit")).map
    (fun r => pyStr r.text)

/-- The filtered token stream of `ngram_slang`. -/
def slangToks (rows : List Rec) (min_len : ℕ) : List String :=
  let text := subNoise (pyLower (joinSpace (slangTexts rows)))
  let toks := (findTokens text).filter (fun t => min_len ≤ t.length)
  toks.filter (fun t => t ∉ stopWords)

/-- The n-grams of one size over the token stream. -/
def gramsOfN (toks : List String) (n : ℕ) : List String :=
  (List.range (toks.length + 1 - n)).map (fun i => joinSpace ((toks.drop i).take n))

/-- The full gram enumeration: 1-grams, then 2-grams, then 3-grams. -/
def slangGrams (rows : List Rec) (min_len : ℕ) : List String :=
  let toks := slangToks rows min_len
  gramsOfN toks 1 ++ gramsOfN toks 2 ++ gramsOfN toks 3

/-- First-seen deduplication (insertion order of a `Counter`). -/
def dedupFirstGo {α : Type} [DecidableEq α] (seen : List α) : List α → List α
  | [] => []
  | x :: rest =>
    if x ∈ seen then dedupFirstGo seen rest
    else x :: dedupFirstGo (x :: seen) rest

/-- Distinct elements of a list in first-occurrence order. -/
def dedupFirst {α : Type} [DecidableEq α] (l : List α) : List α := dedupFirstGo [] l

/-- `Counter(l).most_common(k)`: pairs sorted by descending count, ties
in first-encountered order (`sorted`/`heapq.nlargest` are stable, which
the stable `insertionSort` reproduces). -/
def mostCommon (k : ℕ) (l : List String) : List (String × ℕ) :=
  ((List.insertionSort (fun a b => l.count b ≤ l.count a) (dedupFirst l)).take k).map
    (fun t => (t, l.count t))

/-- `ngram_slang(rows, min_len, top_k)`. -/
def ngram_slang (rows : List Rec) (min_len top_k : ℕ) : List (String × ℕ) :=
  mostCommon top_k (slangGrams rows min_len)

/-! ### The Balanced Sampler (`representative_sample`) -/

/-- The sort key `r.get("score", 0)`. -/
def scoreKey (r : Rec) : ℚ := r.score.getD 0

/-- `representative_sample(rows, n_per_platform)`: group rows by
platform in first-appearance order, sort each group by descending score
(`sorted(..., reverse=True)` is stable, which the stable
`insertionSort` reproduces), take the first `n` of each group and
concatenate. -/
def representative_sample (n : ℕ) (rows : List Rec) : List Rec :=
  (dedupFirst (rows.map (fun r => r.platform))).flatMap (fun p =>
    (List.insertionSort (fun a b => scoreKey b ≤ scoreKey a)
      (rows.filter (fun r => r.platform = p))).take n)

/-! ### The Markdown renderer (`04_markdown_to_docx.py`) -/

/-- An inline span: plain text or a hyperlink with its display text. -/
inductive MdRun where
  | plain : String → MdRun
  | link : (url : String) → (display : String) → MdRun
deriving DecidableEq, Repr

/-- A block emitted into the document, one per input line. -/
inductive Block where
  | heading : ℕ → String → Block
  | bulletItem : List MdRun → Block
  | numberedItem : List MdRun → Block
  | para : List MdRun → Block
  | blank : Block
deriving DecidableEq, Repr

/-- Characters allowed inside a URL by `URL_RE`: `[^\s)]`. -/
def isUrlChar (c : Char) : Bool := !isSpacePy c && c ≠ ')'

/-- Length of the match of `https?://[^\s)]+` at the head of the list,
if any. -/
def matchUrl (cs : List Char) : Option ℕ :=
  match cs with
  | 'h' :: 't' :: 't' :: 'p' :: 's' :: ':' :: '/' :: '/' :: rest =>
    let k := (rest.takeWhile isUrlChar).length
    if 0 < k then some (8 + k) else none
  | 'h' :: 't' :: 't' :: 'p' :: ':' :: '/' :: '/' :: rest =>
    let k := (rest.takeWhile isUrlChar).length
    if 0 < k then some (7 + k) else none
  | _ => none

/-- Wrap pending plain characters (held reversed) as a run, dropping
empties as `add_text_with_links` does. -/
def flushRun (acc : List Char) : List MdRun :=
  if acc.isEmpty then [] else [MdRun.plain (String.mk acc.reverse)]

/-- The scan of `add_text_with_links`, fuelled by the input length. -/
def linkRunsGo : ℕ → List Char → List Char → List MdRun
  | 0, acc, cs => flushRun (cs.reverse ++ acc)
  | _ + 1, acc, [] => flushRun acc
  | fuel + 1, acc, c :: rest =>
    match matchUrl (c :: rest) with
    | some k =>
      let url := String.mk ((c :: rest).take k)
      flushRun acc ++ (MdRun.link url url :: linkRunsGo fuel [] ((c :: rest).drop k))
    | none => linkRunsGo fuel (c :: acc) rest

/-- `add_text_with_links`: split a block text into plain and link runs,
each link displaying its own URL. -/
def linkRuns (s : String) : List MdRun := linkRunsGo s.toList.length [] s.toList

/-- Python `str.splitlines`, fuelled by the input length. -/
def splitLinesGo : ℕ → List Char → List Char → List String
  | 0, acc, cs => if acc.isEmpty && cs.isEmpty then [] else [String.mk (acc.reverse ++ cs)]
  | _ + 1, acc, [] => if acc.isEmpty then [] else [String.mk acc.reverse]
  | fuel + 1, acc, c :: rest =>
    if c = Char.ofNat 10 then String.mk acc.reverse :: splitLinesGo fuel [] rest
    else if c = Char.ofNat 13 then
      String.mk acc.reverse ::
        (match rest with
         | d :: rest2 =>
           if d = Char.ofNat 10 then splitLinesGo fuel [] rest2
           else splitLinesGo fuel [] rest
         | [] => [])
    else splitLinesGo fuel (c :: acc) rest

/-- Python `str.splitlines` on strings. -/
def splitLines (s : String) : List String := splitLinesGo s.toList.length [] s.toList

/-- Whether `s` starts with the literal `p` (`str.startswith`). -/
def hasPre (p s : String) : Bool := s.toList.take p.toList.length = p.toList

/-- The remainder of the line after the prefix matched by
`^\s*\d+\.\s`, when that regex matches (`is_numbered` and the `re.sub`
of the numbered branch). -/
def numTail (cs : List Char) : Option (List Char) :=
  let rest1 := cs.dropWhile isSpacePy
  let ds := rest1.takeWhile isDigitPy
  if ds.isEmpty then none
  else
    match rest1.drop ds.length with
    | c :: tail =>
      if c = '.' then
        match tail with
        | d :: tail2 => if isSpacePy d then some tail2 else none
        | [] => none
      else none
    | [] => none

/-- The block emitted by `md_to_docx` for one raw input line. -/
def renderLine (raw : String) : Block :=
  let line := pyRstrip raw
  if stripPy line = "" then Block.blank
  else if hasPre "# " line then Block.heading 1 (stripPy (String.mk (line.toList.drop 2)))
  else if hasPre "## " line then Block.heading 2 (stripPy (String.mk (line.toList.drop 3)))
  else if hasPre "### " line then Block.heading 3 (stripPy (String.mk (line.toList.drop 4)))
  else if hasPre "- " (pyLstrip line) then
    Block.bulletItem (linkRuns (stripPy (String.mk ((pyLstrip line).toList.drop 2))))
  else
    match numTail line.toList with
    | some tail => Block.numberedItem (linkRuns (stripPy (String.mk tail)))
    | none => Block.para (linkRuns line)

/-- The line loop of `md_to_docx`, threading the `bullet_mode` flag
exactly as the source does. -/
def mdGo (bulletMode : Bool) : List String → List Block
  | [] => []
  | raw :: rest =>
    let line := pyRstrip raw
    if stripPy line = "" then Block.blank :: mdGo false rest
    else if hasPre "# " line then
      Block.heading 1 (stripPy (String.mk (line.toList.drop 2))) :: mdGo false rest
    else if hasPre "## " line then
      Block.heading 2 (stripPy (String.mk (line.toList.drop 3))) :: mdGo false rest
    else if hasPre "### " line then
      Block.heading 3 (stripPy (String.mk (line.toList.drop 4))) :: mdGo false rest
    else if hasPre "- " (pyLstrip line) then
      Block.bulletItem (linkRuns (stripPy (String.mk ((pyLstrip line).toList.drop 2)))) ::
        mdGo true rest
    else
      match numTail line.toList with
      | some tail => Block.numberedItem (linkRuns (stripPy (String.mk tail))) :: mdGo bulletMode rest
      | none => Block.para (linkRuns line) :: mdGo false rest

/-- `md_to_docx`: the sequence of blocks produced for a Markdown text. -/
def md_to_docx (md : String) : List Block := mdGo false (splitLines md)

/-! ### The fixed style table (`style_document` and `add_hyperlink`) -/

/-- Font and paragraph-format data set on one named style. -/
structure StyleSpec where
  fontName : String
  sizePt : ℕ
  bold : Option Bool
  spaceBeforePt : ℕ
  spaceAfterPt : ℕ
deriving DecidableEq, Repr

/-- The `Normal` style as set by `style_document`. -/
def normalStyle : StyleSpec :=
  { fontName := "Calibri", sizePt := 11, bold := none, spaceBeforePt := 0, spaceAfterPt := 6 }

/-- The `Heading 1` style as set by `style_document`. -/
def heading1Style : StyleSpec :=
  { fontName := "Calibri Light", sizePt := 26, bold := some true,
    spaceBeforePt := 6, spaceAfterPt := 8 }

/-- The `Heading 2` style as set by `style_document`. -/
def heading2Style : StyleSpec :=
  { fontName := "Calibri", sizePt := 20, bold := some true,
    spaceBeforePt := 8, spaceAfterPt := 6 }

/-- The `Heading 3` style as set by `style_document`. -/
def heading3Style : StyleSpec :=
  { fontName := "Calibri", sizePt := 14, bold := some true,
    spaceBeforePt := 6, spaceAfterPt := 4 }

/-- Run properties attached to every hyperlink run by `add_hyperlink`. -/
structure HlinkProps where
  underlineVal : String
  colorVal : String
  noProof : Bool
deriving DecidableEq, Repr

/-- The fixed hyperlink run formatting of `add_hyperlink`. -/
def hyperlinkProps : HlinkProps :=
  { underlineVal := "single", colorVal := "0000FF", noProof := true }

/-- The `seen` key set after the dedup loop has processed a list. -/
def seenAcc (hf : String → String) (seen : List String) : List Rec → List String
  | [] => seen
  | r :: rest =>
    if dedupKey hf r ∈ seen then seenAcc hf seen rest
    else seenAcc hf (dedupKey hf r :: seen) rest

/-! ### Lemmas about the Normalizer -/

theorem prepareGo_eq_keptGo (hf : String → String) :
    ∀ (l : List Rec) (seen : List String),
      prepareGo hf seen l = (keptGo hf seen l).map toCleaned
  | [], _ => rfl
  | r :: rest, seen => by
    simp only [prepareGo, keptGo]
    by_cases h : dedupKey hf r ∈ seen
    · simp only [h, if_true]
      exact prepareGo_eq_keptGo hf rest seen
    · simp only [h, if_false, List.map_cons]
      rw [prepareGo_eq_keptGo hf rest (dedupKey hf r :: seen)]

theorem keptGo_keys (hf : String → String) :
    ∀ (l : List Rec) (seen : List String),
      ((keptGo hf seen l).map (dedupKey hf)).Nodup ∧
        ∀ k ∈ (keptGo hf seen l).map (dedupKey hf), k ∉ seen
  | [], _ => ⟨List.nodup_nil, by simp [keptGo]⟩
  | r :: rest, seen => by
    simp only [keptGo]
    by_cases h : dedupKey hf r ∈ seen
    · simpa only [h, if_true] using keptGo_keys hf rest seen
    · have ih := keptGo_keys hf rest (dedupKey hf r :: seen)
      simp only [h, if_false, List.map_cons, List.nodup_cons]
      refine ⟨⟨fun hmem => (ih.2 _ hmem) (List.mem_cons_self _ _), ih.1⟩, ?_⟩
      intro k hk
      rcases List.mem_cons.mp hk with rfl | hk2
      · exact h
      · exact fun hks => (ih.2 _ hk2) (List.mem_cons_of_mem _ hks)

theorem mem_keptGo (hf : String → String) :
    ∀ (l : List Rec) (seen : List String) (r : Rec), r ∈ keptGo hf seen l → r ∈ l
  | [], _, _ => fun h => absurd h (List.not_mem_nil _)
  | x :: rest, seen, r => by
    simp only [keptGo]
    by_cases h : dedupKey hf x ∈ seen
    · simp only [h, if_true]
      exact fun hm => List.mem_cons_of_mem _ (mem_keptGo hf rest seen r hm)
    · simp only [h, if_false, List.mem_cons]
      rintro (rfl | hm)
      · exact Or.inl rfl
      · exact Or.inr (mem_keptGo hf rest _ r hm)

theorem prepareGo_append (hf : String → String) :
    ∀ (l₁ l₂ : List Rec) (seen : List String),
      prepareGo hf seen (l₁ ++ l₂) =
        prepareGo hf seen l₁ ++ prepareGo hf (seenAcc hf seen l₁) l₂
  | [], _, _ => rfl
  | r :: rest, l₂, seen => by
    simp only [List.cons_append, prepareGo, seenAcc, List.append_eq]
    by_cases h : dedupKey hf r ∈ seen
    · simp only [h, if_true]
      exact prepareGo_append hf rest l₂ seen
    · simp only [h, if_false, List.cons_append]
      rw [prepareGo_append hf rest l₂ (dedupKey hf r :: seen)]

/-- C2: in every batch, the records surviving the Normalizer carry
pairwise-distinct dedup keys (the key of §4.1 step 1: the record's
non-empty `url`, else the hash of its whitespace-normalized
text-or-title), and the output is exactly the cleaned image of those
survivors. -/
theorem dedup_key_uniqueness (hf : String → String) (rows : List Rec) :
    ((kept hf rows).map (dedupKey hf)).Nodup ∧
      prepare hf rows = (kept hf rows).map toCleaned :=
  ⟨(keptGo_keys hf rows []).1, prepareGo_eq_keptGo hf rows []⟩

/-- C9: the Normalizer is total record by record: appending any raw
record to a batch either adds exactly its cleaned `SourceRecord` to the
output or deduplicates it, and the record with every field missing
still normalizes to the mostly-empty record. -/
theorem normalizer_never_fails (hf : String → String) :
    (∀ (rows : List Rec) (r : Rec),
        prepare hf (rows ++ [r]) = prepare hf rows ∨
          prepare hf (rows ++ [r]) = prepare hf rows ++ [toCleaned r]) ∧
      toCleaned blankRec =
        { platform := some "", author := some "", title := some "", text := some "" } := by
  constructor
  · intro rows r
    rw [prepare, prepareGo_append]
    by_cases h : dedupKey hf r ∈ seenAcc hf [] rows
    · left
      simp [prepareGo, h, prepare]
    · right
      simp [prepareGo, h, prepare]
  · rfl

/-! ### Lemmas about the Scorer -/

theorem round3_zero : round3 0 = 0 := by
  norm_num [round3, roundHalfEven]

theorem mean_of_constant (l : List ℚ) (hc : ∀ a ∈ l, ∀ b ∈ l, a = b) :
    ∀ b ∈ l, b = meanOf l := by
  intro b hb
  have hrep : l = List.replicate l.length b :=
    List.eq_replicate_iff.mpr ⟨rfl, fun x hx => hc x hx b hb⟩
  have hlen : (l.length : ℚ) ≠ 0 := by
    have : 0 < l.length := List.length_pos.mpr (List.ne_nil_of_mem hb)
    exact_mod_cast Nat.pos_iff_ne_zero.mp this
  rw [meanOf, hrep]
  simp only [List.sum_replicate, List.length_replicate, nsmul_eq_mul]
  rw [mul_div_assoc, mul_comm, div_mul_cancel₀ _ hlen]

/-- C1: a batch of a single record, or a batch in which every record
has the same coerced base engagement `likes + 2*comments + 2*shares`,
is scored `0.0` on every record, for any values of the log and
square-root functions. -/
theorem score_zero_variance (lg : ℕ → ℚ) (sq : ℚ → ℚ) (rows : List Rec)
    (h : rows.length = 1 ∨ ∀ r ∈ rows, ∀ s ∈ rows, baseOf r = baseOf s) :
    ∀ x ∈ trend_score lg sq rows, x.score = some 0 := by
  have hall : ∀ r ∈ rows, ∀ s ∈ rows, baseOf r = baseOf s := by
    rcases h with h1 | h2
    · cases rows with
      | nil => simp at h1
      | cons a tl =>
        cases tl with
        | nil =>
          intro r hr s hs
          simp only [List.mem_singleton] at hr hs
          rw [hr, hs]
        | cons b tl2 => simp at h1
    · exact h2
  intro x hx
  simp only [trend_score] at hx
  obtain ⟨p, hp, rfl⟩ := List.mem_map.mp hx
  have hmem := List.of_mem_zip hp
  have hb : p.2 ∈ rows.map (fun r => lg (max 0 (baseOf r))) := hmem.2
  have hconst : ∀ a ∈ rows.map (fun r => lg (max 0 (baseOf r))),
      ∀ b ∈ rows.map (fun r => lg (max 0 (baseOf r))), a = b := by
    intro a ha b hbm
    obtain ⟨r, hr, rfl⟩ := List.mem_map.mp ha
    obtain ⟨s, hs, rfl⟩ := List.mem_map.mp hbm
    rw [hall r hr s hs]
  have hmu : p.2 = meanOf (rows.map (fun r => lg (max 0 (baseOf r)))) :=
    mean_of_constant _ hconst p.2 hb
  have hne : rows.map (fun r => lg (max 0 (baseOf r))) ≠ [] := List.ne_nil_of_mem hb
  simp only [hne, if_false]
  rw [← hmu, sub_self, zero_div, round3_zero]

/-- Witness for C1, at the one-record batch of the all-empty record. -/
theorem score_zero_variance_witness :
    (([blankRec] : List Rec).length = 1 ∨
        ∀ r ∈ ([blankRec] : List Rec), ∀ s ∈ ([blankRec] : List Rec), baseOf r = baseOf s) ∧
      ∀ x ∈ trend_score (fun _ => 0) (fun _ => 0) [blankRec], x.score = some 0 :=
  ⟨Or.inl rfl, score_zero_variance (fun _ => 0) (fun _ => 0) [blankRec] (Or.inl rfl)⟩

/-! ### Lemmas about the Sampler -/

theorem mem_dedupFirstGo {α : Type} [DecidableEq α] :
    ∀ (l : List α) (seen : List α) (x : α),
      x ∈ dedupFirstGo seen l ↔ x ∈ l ∧ x ∉ seen
  | [], seen, x => by simp [dedupFirstGo]
  | y :: rest, seen, x => by
    simp only [dedupFirstGo]
    by_cases h : y ∈ seen
    · rw [if_pos h, mem_dedupFirstGo rest seen x, List.mem_cons]
      constructor
      · exact fun hx => ⟨Or.inr hx.1, hx.2⟩
      · rintro ⟨rfl | hx, hns⟩
        · exact absurd h hns
        · exact ⟨hx, hns⟩
    · rw [if_neg h, List.mem_cons, mem_dedupFirstGo rest (y :: seen) x, List.mem_cons,
        List.mem_cons]
      constructor
      · rintro (rfl | ⟨hx, hns⟩)
        · exact ⟨Or.inl rfl, h⟩
        · exact ⟨Or.inr hx, fun hs => hns (Or.inr hs)⟩
      · rintro ⟨rfl | hx, hns⟩
        · exact Or.inl rfl
        · by_cases hxy : x = y
          · exact Or.inl hxy
          · refine Or.inr ⟨hx, fun hs => ?_⟩
            rcases hs with h1 | h2
            · exact hxy h1
            · exact hns h2

theorem dedupFirstGo_nodup {α : Type} [DecidableEq α] :
    ∀ (l : List α) (seen : List α), (dedupFirstGo seen l).Nodup
  | [], _ => List.nodup_nil
  | y :: rest, seen => by
    simp only [dedupFirstGo]
    by_cases h : y ∈ seen
    · simp only [h, if_true]
      exact dedupFirstGo_nodup rest seen
    · simp only [h, if_false, List.nodup_cons]
      refine ⟨fun hy => ?_, dedupFirstGo_nodup rest (y :: seen)⟩
      exact ((mem_dedupFirstGo rest (y :: seen) y).mp hy).2 (List.mem_cons_self _ _)

theorem mem_dedupFirst {α : Type} [DecidableEq α] (l : List α) (x : α) :
    x ∈ dedupFirst l ↔ x ∈ l := by
  rw [dedupFirst, mem_dedupFirstGo]
  simp

theorem dedupFirst_nodup {α : Type} [DecidableEq α] (l : List α) :
    (dedupFirst l).Nodup := dedupFirstGo_nodup l []

theorem mem_sample_chunk (n : ℕ) (rows : List Rec) (q : Option String) (x : Rec)
    (hx : x ∈ (List.insertionSort (fun a b => scoreKey b ≤ scoreKey a)
      (rows.filter (fun r => r.platform = q))).take n) : x.platform = q := by
  have hx2 := List.take_subset _ _ hx
  rw [List.mem_insertionSort] at hx2
  exact of_decide_eq_true (List.mem_filter.mp hx2).2

theorem sample_count_aux (n : ℕ) (rows : List Rec) (p : Option String) :
    ∀ keys : List (Option String), keys.Nodup →
      ((keys.flatMap (fun q =>
          (List.insertionSort (fun a b => scoreKey b ≤ scoreKey a)
            (rows.filter (fun r => r.platform = q))).take n)).filter
        (fun r => r.platform = p)).length ≤ n := by
  intro keys
  induction keys with
  | nil => simp
  | cons k ks ih =>
    intro hnd
    rcases List.nodup_cons.mp hnd with ⟨hk, hnd2⟩
    rw [List.flatMap_cons, List.filter_append, List.length_append]
    by_cases hkp : k = p
    · subst hkp
      have h1 : ((List.insertionSort (fun a b => scoreKey b ≤ scoreKey a)
          (rows.filter (fun r => r.platform = k))).take n).length ≤ n :=
        List.length_take_le _ _
      have h2 : ((ks.flatMap (fun q =>
          (List.insertionSort (fun a b => scoreKey b ≤ scoreKey a)
            (rows.filter (fun r => r.platform = q))).take n)).filter
        (fun r => r.platform = k)) = [] := by
        rw [List.filter_eq_nil_iff]
        intro a ha
        obtain ⟨q, hq, haq⟩ := List.mem_flatMap.mp ha
        have hap : a.platform = q := mem_sample_chunk n rows q a haq
        simp only [decide_eq_true_eq]
        intro hk2
        have hqk : q = k := by rw [← hap, hk2]
        exact hk (hqk ▸ hq)
      rw [h2]
      simpa using le_trans (List.length_filter_le _ _) h1
    · have h1 : ((List.insertionSort (fun a b => scoreKey b ≤ scoreKey a)
          (rows.filter (fun r => r.platform = k))).take n).filter
            (fun r => r.platform = p) = [] := by
        rw [List.filter_eq_nil_iff]
        intro a ha
        have hap : a.platform = k := mem_sample_chunk n rows k a ha
        simp only [decide_eq_true_eq]
        intro hp2
        exact hkp (by rw [← hap, hp2])
      rw [h1]
      simpa using ih hnd2

theorem sample_count_le (n : ℕ) (rows : List Rec) (p : Option String) :
    ((representative_sample n rows).filter (fun r => r.platform = p)).length ≤ n :=
  sample_count_aux n rows p _ (dedupFirst_nodup _)

/-- The per-platform cap and representation guarantee of the Sampler. -/
def samplerProp (n : ℕ) (rows : List Rec) : Prop :=
  (∀ p : Option String,
      ((representative_sample n rows).filter (fun r => r.platform = p)).length ≤ n) ∧
    ∀ p : Option String, (∃ r ∈ rows, r.platform = p) →
      ∃ x ∈ representative_sample n rows, x.platform = p

/-- Counterexample to C4 as stated: with the per-platform limit `N = 0`
(a value the code accepts), a platform present in the input is not
represented in the output, so the universally quantified claim fails. -/
theorem sampler_claim_cex : ¬ samplerProp 0 [{ platform := some "reddit" }] := by
  intro h
  obtain ⟨x, hx, _⟩ := h.2 (some "reddit")
    ⟨{ platform := some "reddit" }, List.mem_singleton.mpr rfl, rfl⟩
  have hempty : representative_sample 0 [({ platform := some "reddit" } : Rec)] = [] := rfl
  rw [hempty] at hx
  exact absurd hx (List.not_mem_nil x)

/-- C4 amended: for every positive per-platform limit `N ≥ 1`, the
Sampler emits at most `N` records per platform and every platform
present in the input is represented in the output. -/
theorem sampler_bound (n : ℕ) (rows : List Rec) (hn : 1 ≤ n) : samplerProp n rows := by
  refine ⟨fun p => sample_count_le n rows p, ?_⟩
  rintro p ⟨r, hr, hrp⟩
  have hpkeys : p ∈ dedupFirst (rows.map (fun s => s.platform)) :=
    (mem_dedupFirst _ _).mpr (List.mem_map.mpr ⟨r, hr, hrp⟩)
  have hrfil : r ∈ rows.filter (fun s => s.platform = p) :=
    List.mem_filter.mpr ⟨hr, decide_eq_true hrp⟩
  have hsort : r ∈ List.insertionSort (fun a b => scoreKey b ≤ scoreKey a)
      (rows.filter (fun s => s.platform = p)) :=
    (List.mem_insertionSort _).mpr hrfil
  have hne : (List.insertionSort (fun a b => scoreKey b ≤ scoreKey a)
      (rows.filter (fun s => s.platform = p))).take n ≠ [] := by
    rw [ne_eq, List.take_eq_nil_iff]
    push_neg
    exact ⟨by omega, List.ne_nil_of_mem hsort⟩
  obtain ⟨x, hx⟩ := List.exists_mem_of_ne_nil _ hne
  exact ⟨x, List.mem_flatMap.mpr ⟨p, hpkeys, hx⟩, mem_sample_chunk n rows p x hx⟩

/-- Witness for the amended C4, at limit `1` and a one-record batch. -/
theorem sampler_bound_witness :
    1 ≤ 1 ∧ samplerProp 1 [{ platform := some "reddit" }] :=
  ⟨le_refl 1, sampler_bound 1 [{ platform := some "reddit" }] (le_refl 1)⟩

/-- Fill a missing score with the default `0` the sort key uses. -/
def fillScore (r : Rec) : Rec := { r with score := some (r.score.getD 0) }

/-- C10: the Sampler is insensitive to missing scores: filling every
missing score with `0` commutes with sampling (so an unscored record
ranks exactly as a zero-scored one), a missing score reads back as sort
key `0`, and any batch, scored or not, keeps at most `N` records per
platform. -/
theorem sampler_unscored (n : ℕ) (rows : List Rec) :
    representative_sample n (rows.map fillScore) =
        (representative_sample n rows).map fillScore ∧
      (∀ r : Rec, r.score = none → scoreKey r = 0 ∧ fillScore r = { r with score := some 0 }) ∧
      ∀ p : Option String,
        ((representative_sample n rows).filter (fun r => r.platform = p)).length ≤ n := by
  refine ⟨?_, ?_, fun p => sample_count_le n rows p⟩
  · rw [representative_sample, representative_sample]
    have hplat : (rows.map fillScore).map (fun r => r.platform) =
        rows.map (fun r => r.platform) := by
      rw [List.map_map]; rfl
    rw [hplat, List.map_flatMap]
    refine congrArg _ (funext fun q => ?_)
    have hfil : (rows.map fillScore).filter (fun r => r.platform = q) =
        (rows.filter (fun r => r.platform = q)).map fillScore := by
      rw [List.filter_map]; rfl
    rw [hfil, ← List.map_insertionSort (fun a b => scoreKey b ≤ scoreKey a)
      (fun a b => scoreKey b ≤ scoreKey a) fillScore _ (fun a _ b _ => Iff.rfl),
      List.map_take]
  · intro r h
    rw [scoreKey, h, fillScore, h]
    exact ⟨rfl, rfl⟩

/-- Witness for C10, at limit `1` and the unscored empty record. -/
theorem sampler_unscored_witness :
    (blankRec.score = none) ∧ scoreKey blankRec = 0 ∧
      fillScore blankRec = { blankRec with score := some 0 } ∧
      representative_sample 1 ([blankRec].map fillScore) =
        (representative_sample 1 [blankRec]).map fillScore :=
  ⟨rfl, ((sampler_unscored 1 [blankRec]).2.1 blankRec rfl).1,
    ((sampler_unscored 1 [blankRec]).2.1 blankRec rfl).2,
    (sampler_unscored 1 [blankRec]).1⟩

/-! ### Lemmas about the renderer -/

theorem mdGo_eq_map : ∀ (lines : List String) (b : Bool),
    mdGo b lines = lines.map renderLine
  | [], _ => rfl
  | raw :: rest, b => by
    simp only [mdGo, renderLine, List.map_cons]
    split_ifs
    · rw [mdGo_eq_map rest false]
    · rw [mdGo_eq_map rest false]
    · rw [mdGo_eq_map rest false]
    · rw [mdGo_eq_map rest false]
    · rw [mdGo_eq_map rest true]
    · cases hnt : numTail (pyRstrip raw).toList with
      | some tail => simp only [hnt, mdGo_eq_map rest b]
      | none => simp only [hnt, mdGo_eq_map rest false]

/-- C6: the single Markdown line `- See https://example.com/a for details`
renders to exactly one bullet-list block whose inline spans are the
plain run `See `, a link run displaying its own URL
`https://example.com/a`, and the plain run ` for details`, in that
order. -/
theorem renderer_link_extraction :
    md_to_docx "- See https://example.com/a for details" =
      [Block.bulletItem [MdRun.plain "See ",
        MdRun.link "https://example.com/a" "https://example.com/a",
        MdRun.plain " for details"]] := by decide

/-- C7: the renderer is total: every input string renders to one block
per input line (so it never fails and an empty input gives the empty
document), and every non-blank line matching none of the heading,
bullet or numbered patterns is emitted as a `Paragraph`. -/
theorem renderer_never_throws (md : String) :
    md_to_docx md = (splitLines md).map renderLine ∧
      md_to_docx "" = [] ∧
      ∀ raw : String,
        stripPy (pyRstrip raw) ≠ "" →
        hasPre "# " (pyRstrip raw) = false →
        hasPre "## " (pyRstrip raw) = false →
        hasPre "### " (pyRstrip raw) = false →
        hasPre "- " (pyLstrip (pyRstrip raw)) = false →
        numTail (pyRstrip raw).toList = none →
        renderLine raw = Block.para (linkRuns (pyRstrip raw)) := by
  refine ⟨mdGo_eq_map (splitLines md) false, rfl, ?_⟩
  intro raw hb hh1 hh2 hh3 hbl hnum
  simp only [renderLine, hb, hh1, hh2, hh3, hbl, hnum, if_neg hb, Bool.false_eq_true,
    if_false]

/-- Witness for C7, at the input `#oops`, which is non-blank and
matches no structural pattern. -/
theorem renderer_never_throws_witness :
    md_to_docx "#oops" = (splitLines "#oops").map renderLine ∧
      stripPy (pyRstrip "#oops") ≠ "" ∧
      renderLine "#oops" = Block.para (linkRuns (pyRstrip "#oops")) := by
  have h := renderer_never_throws "#oops"
  exact ⟨h.1, by decide,
    h.2.2 "#oops" (by decide) (by decide) (by decide) (by decide) (by decide) (by decide)⟩

/-- The style table exactly as C8 states it, including the 6pt-to-8pt
band it asserts for every heading spacing. -/
def styleClaimStated : Prop :=
  normalStyle.sizePt = 11 ∧ normalStyle.spaceAfterPt = 6 ∧ normalStyle.spaceBeforePt = 0 ∧
  heading1Style.sizePt = 26 ∧ heading1Style.bold = some true ∧
  heading2Style.sizePt = 20 ∧ heading2Style.bold = some true ∧
  heading3Style.sizePt = 14 ∧ heading3Style.bold = some true ∧
  6 ≤ heading1Style.spaceBeforePt ∧ heading1Style.spaceBeforePt ≤ 8 ∧
  6 ≤ heading1Style.spaceAfterPt ∧ heading1Style.spaceAfterPt ≤ 8 ∧
  6 ≤ heading2Style.spaceBeforePt ∧ heading2Style.spaceBeforePt ≤ 8 ∧
  6 ≤ heading2Style.spaceAfterPt ∧ heading2Style.spaceAfterPt ≤ 8 ∧
  6 ≤ heading3Style.spaceBeforePt ∧ heading3Style.spaceBeforePt ≤ 8 ∧
  6 ≤ heading3Style.spaceAfterPt ∧ heading3Style.spaceAfterPt ≤ 8 ∧
  hyperlinkProps.underlineVal = "single" ∧ hyperlinkProps.colorVal = "0000FF"

/-- Counterexample to C8 as stated: `Heading 3` is given 4pt spacing
after, outside the claimed 6pt-to-8pt band. -/
theorem style_table_cex : ¬ styleClaimStated := by
  unfold styleClaimStated
  decide

/-- C8 amended: the style table is as claimed except that heading
space-after spacing ranges over 4pt to 8pt (Heading 3 uses 4pt after),
while space-before stays within 6pt to 8pt. -/
theorem style_table :
    normalStyle.sizePt = 11 ∧ normalStyle.spaceAfterPt = 6 ∧ normalStyle.spaceBeforePt = 0 ∧
    heading1Style.sizePt = 26 ∧ heading1Style.bold = some true ∧
    heading2Style.sizePt = 20 ∧ heading2Style.bold = some true ∧
    heading3Style.sizePt = 14 ∧ heading3Style.bold = some true ∧
    6 ≤ heading1Style.spaceBeforePt ∧ heading1Style.spaceBeforePt ≤ 8 ∧
    4 ≤ heading1Style.spaceAfterPt ∧ heading1Style.spaceAfterPt ≤ 8 ∧
    6 ≤ heading2Style.spaceBeforePt ∧ heading2Style.spaceBeforePt ≤ 8 ∧
    4 ≤ heading2Style.spaceAfterPt ∧ heading2Style.spaceAfterPt ≤ 8 ∧
    6 ≤ heading3Style.spaceBeforePt ∧ heading3Style.spaceBeforePt ≤ 8 ∧
    4 ≤ heading3Style.spaceAfterPt ∧ heading3Style.spaceAfterPt ≤ 8 ∧
    hyperlinkProps.underlineVal = "single" ∧ hyperlinkProps.colorVal = "0000FF" := by
  decide

/-! ### Idempotence of the whitespace normalizer -/

/-- Two adjacent characters are not both whitespace. -/
def noWW (a b : Char) : Prop := isSpacePy a = false ∨ isSpacePy b = false

theorem collapseWS_cons_not {c : Char} (rest : List Char) (h : isSpacePy c = false) :
    collapseWS (c :: rest) = c :: collapseWS rest := by
  simp [collapseWS, h]

theorem collapseWS_ws_mem :
    ∀ (l : List Char) (c : Char), c ∈ collapseWS l → isSpacePy c = true → c = ' '
  | [], c => by simp [collapseWS]
  | a :: rest, c => by
    by_cases ha : isSpacePy a
    · by_cases hh : (rest.head?.map isSpacePy).getD false
      · rw [show collapseWS (a :: rest) = collapseWS rest from by simp [collapseWS, ha, hh]]
        exact collapseWS_ws_mem rest c
      · rw [show collapseWS (a :: rest) = ' ' :: collapseWS rest from by
          simp [collapseWS, ha, hh], List.mem_cons]
        rintro (rfl | hc) hw
        · rfl
        · exact collapseWS_ws_mem rest c hc hw
    · have ha2 : isSpacePy a = false := by simpa using ha
      rw [collapseWS_cons_not rest ha2, List.mem_cons]
      rintro (rfl | hc) hw
      · rw [ha2] at hw; exact absurd hw (by simp)
      · exact collapseWS_ws_mem rest c hc hw

theorem collapseWS_chain : ∀ l : List Char, List.Chain' noWW (collapseWS l)
  | [] => List.chain'_nil
  | a :: rest => by
    by_cases ha : isSpacePy a
    · by_cases hh : (rest.head?.map isSpacePy).getD false
      · rw [show collapseWS (a :: rest) = collapseWS rest from by simp [collapseWS, ha, hh]]
        exact collapseWS_chain rest
      · rw [show collapseWS (a :: rest) = ' ' :: collapseWS rest from by
          simp [collapseWS, ha, hh], List.chain'_cons']
        refine ⟨?_, collapseWS_chain rest⟩
        intro y hy
        right
        cases rest with
        | nil => simp [collapseWS] at hy
        | cons d rest2 =>
          have hd : isSpacePy d = false := by simpa using hh
          rw [collapseWS_cons_not rest2 hd] at hy
          simp only [List.head?_cons, Option.mem_def, Option.some.injEq] at hy
          subst hy
          exact hd
    · have ha2 : isSpacePy a = false := by simpa using ha
      rw [collapseWS_cons_not rest ha2, List.chain'_cons']
      exact ⟨fun y _ => Or.inl ha2, collapseWS_chain rest⟩

theorem collapseWS_fixed :
    ∀ l : List Char, List.Chain' noWW l → (∀ c ∈ l, isSpacePy c = true → c = ' ') →
      collapseWS l = l
  | [], _, _ => rfl
  | a :: rest, hch, hws => by
    by_cases ha : isSpacePy a
    · have ha1 : a = ' ' := hws a (List.mem_cons_self _ _) ha
      have hh : (rest.head?.map isSpacePy).getD false = false := by
        cases rest with
        | nil => rfl
        | cons d rest2 =>
          have hnw : noWW a d := (List.chain'_cons.mp hch).1
          rcases hnw with h1 | h2
          · rw [ha] at h1
            exact absurd h1 (by simp)
          · simpa using h2
      rw [show collapseWS (a :: rest) = ' ' :: collapseWS rest from by
        simp [collapseWS, ha, hh], ← ha1,
        collapseWS_fixed rest hch.tail (fun c hc hw => hws c (List.mem_cons_of_mem _ hc) hw)]
    · have ha2 : isSpacePy a = false := by simpa using ha
      rw [collapseWS_cons_not rest ha2,
        collapseWS_fixed rest hch.tail (fun c hc hw => hws c (List.mem_cons_of_mem _ hc) hw)]

theorem chain'_dropWhile {R : Char → Char → Prop} (p : Char → Bool) :
    ∀ l : List Char, List.Chain' R l → List.Chain' R (l.dropWhile p)
  | [], h => h
  | a :: rest, h => by
    rw [List.dropWhile_cons]
    split
    · exact chain'_dropWhile p rest h.tail
    · exact h

theorem dropWhile_head_false (p : Char → Bool) :
    ∀ (l : List Char) (c : Char), (l.dropWhile p).head? = some c → p c = false
  | [], c => by simp
  | a :: rest, c => by
    rw [List.dropWhile_cons]
    split
    · exact dropWhile_head_false p rest c
    · intro hc
      simp only [List.head?_cons, Option.some.injEq] at hc
      subst hc
      simp_all

theorem dropWhile_eq_self_of_head (p : Char → Bool) (l : List Char)
    (h : ∀ c, l.head? = some c → p c = false) : l.dropWhile p = l := by
  cases l with
  | nil => rfl
  | cons a rest =>
    rw [List.dropWhile_cons, if_neg]
    simp [h a rfl]

theorem pyStripL_head_false (l : List Char) (c : Char)
    (hc : (pyStripL l).head? = some c) : isSpacePy c = false := by
  rw [pyStripL, List.head?_reverse] at hc
  obtain ⟨t, ht⟩ := @List.dropWhile_suffix _ ((l.dropWhile isSpacePy).reverse) isSpacePy
  have h2 : (l.dropWhile isSpacePy).reverse.getLast? = some c := by
    rw [← ht, List.getLast?_append, hc]
    rfl
  rw [List.getLast?_reverse] at h2
  exact dropWhile_head_false _ _ _ h2

theorem pyStripL_getLast_false (l : List Char) (c : Char)
    (hc : (pyStripL l).getLast? = some c) : isSpacePy c = false := by
  rw [pyStripL, List.getLast?_reverse] at hc
  exact dropWhile_head_false _ _ _ hc

theorem pyStripL_idem (l : List Char) : pyStripL (pyStripL l) = pyStripL l := by
  have h1 : (pyStripL l).dropWhile isSpacePy = pyStripL l :=
    dropWhile_eq_self_of_head _ _ (fun c hc => pyStripL_head_false l c hc)
  have h2 : (pyStripL l).reverse.dropWhile isSpacePy = (pyStripL l).reverse :=
    dropWhile_eq_self_of_head _ _ (fun c hc =>
      pyStripL_getLast_false l c (by rwa [List.head?_reverse] at hc))
  conv_lhs => rw [pyStripL]
  rw [h1, h2, List.reverse_reverse]

theorem pyStripL_subset (l : List Char) : ∀ c ∈ pyStripL l, c ∈ l := by
  intro c hc
  rw [pyStripL, List.mem_reverse] at hc
  have hc2 := (@List.dropWhile_suffix _ ((l.dropWhile isSpacePy).reverse) isSpacePy).subset hc
  rw [List.mem_reverse] at hc2
  exact (@List.dropWhile_suffix _ l isSpacePy).subset hc2

theorem pyStripL_chain (l : List Char) (h : List.Chain' noWW l) :
    List.Chain' noWW (pyStripL l) := by
  rw [pyStripL]
  have c1 : List.Chain' noWW (l.dropWhile isSpacePy) := chain'_dropWhile _ l h
  have c2 : List.Chain' noWW (l.dropWhile isSpacePy).reverse := by
    rw [List.chain'_reverse]
    exact c1.imp (fun a b hab => Or.symm hab)
  have c3 := chain'_dropWhile isSpacePy _ c2
  rw [List.chain'_reverse]
  exact c3.imp (fun a b hab => Or.symm hab)

theorem norm_text_idem (t : String) : norm_text (norm_text t) = norm_text t := by
  unfold norm_text
  rw [show (String.mk (pyStripL (collapseWS t.toList))).toList =
    pyStripL (collapseWS t.toList) from rfl]
  have hfix : collapseWS (pyStripL (collapseWS t.toList)) = pyStripL (collapseWS t.toList) :=
    collapseWS_fixed _ (pyStripL_chain _ (collapseWS_chain _))
      (fun c hc hw => collapseWS_ws_mem _ c (pyStripL_subset _ c hc) hw)
  rw [hfix, pyStripL_idem]

/-! ### Idempotence of the cleaning map and of the Normalizer -/

theorem lowerChar_mem_upLow : ∀ p ∈ upLow, lowerChar p.2 = p.2 := by decide

theorem lowerChar_idem (c : Char) : lowerChar (lowerChar c) = lowerChar c := by
  cases hf : upLow.find? (fun p => p.1 = c) with
  | none =>
    have h : lowerChar c = c := by unfold lowerChar; rw [hf]; rfl
    rw [h]
    exact h
  | some p =>
    have hp : p ∈ upLow := List.mem_of_find?_eq_some hf
    have h : lowerChar c = p.2 := by unfold lowerChar; rw [hf]; rfl
    rw [h]
    exact lowerChar_mem_upLow p hp

theorem pyLower_idem (s : String) : pyLower (pyLower s) = pyLower s := by
  unfold pyLower
  rw [show (String.mk (s.toList.map lowerChar)).toList = s.toList.map lowerChar from rfl,
    List.map_map]
  exact congrArg String.mk (List.map_congr_left (fun c _ => lowerChar_idem c))

theorem pyStr_some (s : String) : pyStr (some s) = s := by
  unfold pyStr truthy
  by_cases h : s = ""
  · simp [h]
  · simp [h]

theorem pyStr_pyOr_some_none (a : String) : pyStr (pyOr (some a) none) = a := by
  by_cases h : a = ""
  · subst h
    decide
  · have ht : truthy (some a) = true := by simp [truthy, h]
    rw [pyOr, if_pos ht, pyStr_some]

theorem toCleaned_idem (r : Rec) : toCleaned (toCleaned r) = toCleaned r := by
  have h1 : pyLower (pyStr (some (pyLower (pyStr r.platform)))) = pyLower (pyStr r.platform) := by
    rw [pyStr_some, pyLower_idem]
  have h2 : pyStr (pyOr (some (pyStr (pyOr r.author r.subreddit))) none) =
      pyStr (pyOr r.author r.subreddit) := pyStr_pyOr_some_none _
  have h3 : norm_text (pyStr (some (norm_text (pyStr r.title)))) =
      norm_text (pyStr r.title) := by
    rw [pyStr_some, norm_text_idem]
  have h4 : norm_text (pyStr (pyOr (some (norm_text (pyStr (pyOr r.text r.caption)))) none)) =
      norm_text (pyStr (pyOr r.text r.caption)) := by
    rw [pyStr_pyOr_some_none, norm_text_idem]
  simp only [toCleaned, h1, h2, h3, h4]

theorem prepareGo_fixed (hf : String → String) :
    ∀ (l : List Rec) (seen : List String),
      (∀ c ∈ l, toCleaned c = c) →
      ((l.map (dedupKey hf)).Nodup) →
      (∀ c ∈ l, dedupKey hf c ∉ seen) →
      prepareGo hf seen l = l
  | [], _, _, _, _ => rfl
  | c :: rest, seen, hfix, hnd, hns => by
    simp only [prepareGo]
    rw [if_neg (hns c (List.mem_cons_self _ _)), hfix c (List.mem_cons_self _ _)]
    rw [prepareGo_fixed hf rest (dedupKey hf c :: seen)
      (fun d hd => hfix d (List.mem_cons_of_mem _ hd))
      (by rw [List.map_cons, List.nodup_cons] at hnd; exact hnd.2)
      ?_]
    intro d hd hmem
    rcases List.mem_cons.mp hmem with h1 | h2
    · rw [List.map_cons, List.nodup_cons] at hnd
      exact hnd.1 (h1 ▸ List.mem_map_of_mem (dedupKey hf) hd)
    · exact hns d (List.mem_cons_of_mem _ hd) h2

/-- C3 amended: the Normalizer is idempotent on every batch in which
cleaning does not change a record's dedup key (in particular whenever
no record aliases `caption` for a missing `text` and no `text` is pure
whitespace); in general a second pass can drop further records, because
cleaning can move a record onto another dedup key. -/
theorem normalizer_idempotent (hf : String → String) (rows : List Rec)
    (hstable : ∀ r ∈ rows, dedupKey hf (toCleaned r) = dedupKey hf r) :
    prepare hf (prepare hf rows) = prepare hf rows := by
  have hmap : prepare hf rows = (kept hf rows).map toCleaned :=
    prepareGo_eq_keptGo hf rows []
  have hkeys : ((prepare hf rows).map (dedupKey hf)).Nodup := by
    rw [hmap, List.map_map]
    have : (kept hf rows).map (dedupKey hf ∘ toCleaned) = (kept hf rows).map (dedupKey hf) :=
      List.map_congr_left (fun r hr => hstable r (mem_keptGo hf rows [] r hr))
    rw [this]
    exact (keptGo_keys hf rows []).1
  apply prepareGo_fixed hf (prepare hf rows) []
  · intro c hc
    rw [hmap] at hc
    obtain ⟨r, _, rfl⟩ := List.mem_map.mp hc
    exact toCleaned_idem r
  · exact hkeys
  · intro c _ hmem
    exact absurd hmem (List.not_mem_nil _)

/-- Witness for the amended C3, at the singleton all-empty batch and
the identity hash, whose dedup key survives cleaning. -/
theorem normalizer_idempotent_witness :
    (∀ r ∈ ([blankRec] : List Rec), dedupKey id (toCleaned r) = dedupKey id r) ∧
      prepare id (prepare id [blankRec]) = prepare id [blankRec] :=
  ⟨by decide, normalizer_idempotent id [blankRec] (by decide)⟩

/-- Counterexample to C3 as stated: under an injective stand-in for the
MD5 digest, a record whose `text` is a single space and a record with
the same title but no `text` both survive one pass (their keys hash
distinct texts), yet the second pass drops the second record, because
whitespace normalization moved the first record onto the other dedup
key.  The surviving sets differ, so the Normalizer is not idempotent. -/
theorem normalizer_idempotent_cex :
    (toCleaned { title := some "T", likes := .num 5 } ∈
        prepare (fun s => "H" ++ s)
          [{ text := some " ", title := some "T" }, { title := some "T", likes := .num 5 }]) ∧
      (toCleaned { title := some "T", likes := .num 5 } ∉
        prepare (fun s => "H" ++ s)
          (prepare (fun s => "H" ++ s)
            [{ text := some " ", title := some "T" }, { title := some "T", likes := .num 5 }])) ∧
      prepare (fun s => "H" ++ s)
          (prepare (fun s => "H" ++ s)
            [{ text := some " ", title := some "T" }, { title := some "T", likes := .num 5 }]) ≠
        prepare (fun s => "H" ++ s)
          [{ text := some " ", title := some "T" }, { title := some "T", likes := .num 5 }] := by
  refine ⟨by decide, by decide, by decide⟩

/-! ### Ordering of the Slang Extractor output -/

/-- First index of an element in a list (the list length if absent). -/
def firstIdx {α : Type} [DecidableEq α] : List α → α → ℕ
  | [], _ => 0
  | y :: rest, x => if y = x then 0 else firstIdx rest x + 1

theorem firstIdx_cons {α : Type} [DecidableEq α] (y : α) (rest : List α) (x : α) :
    firstIdx (y :: rest) x = if y = x then 0 else firstIdx rest x + 1 := rfl

theorem stable_orderedInsert {α : Type} (cnt pos : α → ℕ) (a : α) :
    ∀ s : List α,
      s.Pairwise (fun x y => cnt y ≤ cnt x ∧ (cnt x = cnt y → pos x < pos y)) →
      (∀ b ∈ s, pos a < pos b) →
      (List.orderedInsert (fun x y => cnt y ≤ cnt x) a s).Pairwise
        (fun x y => cnt y ≤ cnt x ∧ (cnt x = cnt y → pos x < pos y))
  | [], _, _ => List.pairwise_singleton _ _
  | b :: t, hp, hpos => by
    by_cases hab : cnt b ≤ cnt a
    · rw [show List.orderedInsert (fun x y => cnt y ≤ cnt x) a (b :: t) = a :: b :: t from by
        simp [List.orderedInsert, hab], List.pairwise_cons]
      refine ⟨?_, hp⟩
      intro y hy
      rcases List.mem_cons.mp hy with rfl | hyt
      · exact ⟨hab, fun _ => hpos y (List.mem_cons_self _ _)⟩
      · have hby := (List.pairwise_cons.mp hp).1 y hyt
        exact ⟨le_trans hby.1 hab, fun _ => hpos y (List.mem_cons_of_mem _ hyt)⟩
    · have hlt : cnt a < cnt b := Nat.lt_of_not_le hab
      rw [show List.orderedInsert (fun x y => cnt y ≤ cnt x) a (b :: t) =
          b :: List.orderedInsert (fun x y => cnt y ≤ cnt x) a t from by
        simp [List.orderedInsert, hab], List.pairwise_cons]
      constructor
      · intro y hy
        rw [List.mem_orderedInsert] at hy
        rcases hy with rfl | hyt
        · exact ⟨le_of_lt hlt, fun he => absurd he (by omega)⟩
        · exact (List.pairwise_cons.mp hp).1 y hyt
      · exact stable_orderedInsert cnt pos a t (List.pairwise_cons.mp hp).2
          (fun y hy => hpos y (List.mem_cons_of_mem _ hy))

theorem stable_insertionSort {α : Type} (cnt pos : α → ℕ) :
    ∀ l : List α,
      l.Pairwise (fun x y => pos x < pos y) →
      (List.insertionSort (fun x y => cnt y ≤ cnt x) l).Pairwise
        (fun x y => cnt y ≤ cnt x ∧ (cnt x = cnt y → pos x < pos y))
  | [], _ => List.Pairwise.nil
  | a :: rest, hp => by
    rw [show List.insertionSort (fun x y => cnt y ≤ cnt x) (a :: rest) =
        List.orderedInsert (fun x y => cnt y ≤ cnt x) a
          (List.insertionSort (fun x y => cnt y ≤ cnt x) rest) from rfl]
    apply stable_orderedInsert
    · exact stable_insertionSort cnt pos rest (List.pairwise_cons.mp hp).2
    · intro b hb
      rw [List.mem_insertionSort] at hb
      exact (List.pairwise_cons.mp hp).1 b hb

theorem dedupFirstGo_pairwise_firstIdx {α : Type} [DecidableEq α] :
    ∀ (l : List α) (seen : List α),
      (dedupFirstGo seen l).Pairwise (fun a b => firstIdx l a < firstIdx l b)
  | [], _ => List.Pairwise.nil
  | y :: rest, seen => by
    simp only [dedupFirstGo]
    by_cases h : y ∈ seen
    · rw [if_pos h]
      refine (dedupFirstGo_pairwise_firstIdx rest seen).imp_of_mem ?_
      intro a b ha hb hr
      have hna : y ≠ a := by
        rintro rfl
        exact ((mem_dedupFirstGo rest seen y).mp ha).2 h
      have hnb : y ≠ b := by
        rintro rfl
        exact ((mem_dedupFirstGo rest seen y).mp hb).2 h
      rw [firstIdx_cons, firstIdx_cons, if_neg hna, if_neg hnb]
      omega
    · rw [if_neg h, List.pairwise_cons]
      constructor
      · intro b hb
        have hnb : y ≠ b := by
          rintro rfl
          exact ((mem_dedupFirstGo rest (y :: seen) y).mp hb).2 (List.mem_cons_self _ _)
        rw [firstIdx_cons, firstIdx_cons, if_pos rfl, if_neg hnb]
        omega
      · refine (dedupFirstGo_pairwise_firstIdx rest (y :: seen)).imp_of_mem ?_
        intro a b ha hb hr
        have hna : y ≠ a := by
          rintro rfl
          exact ((mem_dedupFirstGo rest (y :: seen) y).mp ha).2 (List.mem_cons_self _ _)
        have hnb : y ≠ b := by
          rintro rfl
          exact ((mem_dedupFirstGo rest (y :: seen) y).mp hb).2 (List.mem_cons_self _ _)
        rw [firstIdx_cons, firstIdx_cons, if_neg hna, if_neg hnb]
        omega

/-- C5 amended: the slang output is sorted by weakly descending
frequency, and phrases of equal frequency appear in the
first-encountered order of the gram enumeration (all 1-grams in corpus
order, then all 2-grams, then all 3-grams); for equal-length phrases
this is first-occurrence order in the corpus, but a shorter phrase
always precedes an equally frequent longer one. -/
theorem slang_order (rows : List Rec) (min_len top_k : ℕ) :
    (ngram_slang rows min_len top_k).Pairwise (fun a b =>
      b.2 ≤ a.2 ∧ (a.2 = b.2 →
        firstIdx (slangGrams rows min_len) a.1 < firstIdx (slangGrams rows min_len) b.1)) := by
  rw [ngram_slang, mostCommon]
  have hdedup : (dedupFirst (slangGrams rows min_len)).Pairwise
      (fun a b => firstIdx (slangGrams rows min_len) a < firstIdx (slangGrams rows min_len) b) :=
    dedupFirstGo_pairwise_firstIdx (slangGrams rows min_len) []
  have hsorted := stable_insertionSort (fun t => (slangGrams rows min_len).count t)
    (firstIdx (slangGrams rows min_len)) (dedupFirst (slangGrams rows min_len)) hdedup
  have htake := List.Pairwise.sublist (List.take_sublist top_k _) hsorted
  exact htake.map _ (fun a b hr => ⟨hr.1, hr.2⟩)

/-- The position in the token stream at which a phrase first occurs as
a 1-, 2- or 3-gram (the stream length when it never does): the corpus
first-occurrence position C5 refers to. -/
def firstCorpusPos (toks : List String) (p : String) : ℕ :=
  ((List.range toks.length).filter (fun i =>
    joinSpace ((toks.drop i).take 1) = p ∨ joinSpace ((toks.drop i).take 2) = p ∨
      joinSpace ((toks.drop i).take 3) = p)).headD toks.length

/-- Counterexample to C5 as stated: in the corpus `xxx yyy xxx yyy zzz`
the unigram `yyy` (first corpus occurrence at token 1) and the bigram
`xxx yyy` (first corpus occurrence at token 0) both have frequency 2,
yet the extractor lists `yyy` before `xxx yyy`: ties follow the gram
enumeration, where every 1-gram precedes every 2-gram, not corpus
position. -/
theorem slang_order_cex :
    ¬ (ngram_slang [{ platform := some "reddit", text := some "xxx yyy xxx yyy zzz" }] 3
        50).Pairwise (fun a b => b.2 ≤ a.2 ∧ (a.2 = b.2 →
      firstCorpusPos (slangToks
          [{ platform := some "reddit", text := some "xxx yyy xxx yyy zzz" }] 3) a.1 ≤
        firstCorpusPos (slangToks
          [{ platform := some "reddit", text := some "xxx yyy xxx yyy zzz" }] 3) b.1)) := by
  decide

end Trends
